import Mathlib

set_option maxRecDepth 100000

deriving instance DecidableEq for Except

/-!
# Verification of the linkerd2-proxy connection-header detection protocol

Shallow embedding of `src/linkerd/connection-header/src/lib.rs` (preface
detection, frame encoding, protobuf header codec) and of the metrics
formatter in `src/linkerd/http-metrics/src/report.rs`.

Bytes are modelled as `Nat` (values below 256), byte buffers as `List Nat`.
The growable `BytesMut` buffer is modelled as its unread bytes together with
its allocated capacity.  The asynchronous transport is modelled as the list
of chunks successive `read_buf` calls deliver; an exhausted list (or an empty
chunk) models a read returning zero, i.e. end of stream.
-/

namespace ConnHeader

/-- Bytes of the magic preface `b"proxy.l5d.io/connect\r\n\r\n"` (24 bytes). -/
def PREFACE : List Nat :=
  [112, 114, 111, 120, 121, 46, 108, 53, 100, 46, 105, 111, 47,
   99, 111, 110, 110, 101, 99, 116, 13, 10, 13, 10]

/-- Source constant `PREFACE_LEN = PREFACE.len() + 4`. -/
def PREFACE_LEN : Nat := PREFACE.length + 4

/-! ## Varint (LEB128) encoding and decoding, as used by prost -/

/-- Encoding loop for varints, structurally recursive on the number of
bytes still allowed; ten bytes cover every 64-bit value, which is the whole
domain of prost's varint encoder. -/
def varintEncodeAux : Nat → Nat → List Nat
  | 0, _ => []
  | fuel + 1, n =>
    if n < 128 then [n]
    else (n % 128 + 128) :: varintEncodeAux fuel (n / 128)

/-- Encodes an unsigned 64-bit value as a protobuf base-128 varint. -/
def varintEncode (n : Nat) : List Nat := varintEncodeAux 10 n

/-- Decoding loop for varints: index `i` counts bytes consumed so far and
`acc` the value accumulated from them; prost accepts at most ten bytes and
truncates the result to 64 bits. -/
def varintDecodeAux : List Nat → Nat → Nat → Option (Nat × List Nat)
  | [], _, _ => none
  | b :: rest, i, acc =>
    if 10 ≤ i then none
    else if b < 128 then some ((acc + b * 128 ^ i) % 2 ^ 64, rest)
    else varintDecodeAux rest (i + 1) (acc + b % 128 * 128 ^ i)

/-- Decodes a varint from the front of a byte list, returning the value and
the remaining bytes. -/
def varintDecode (bs : List Nat) : Option (Nat × List Nat) :=
  varintDecodeAux bs 0 0

/-! ## UTF-8 validity (prost validates string fields) -/

/-- Tests for a UTF-8 continuation byte. -/
def utf8Cont (b : Nat) : Bool := 128 ≤ b && b ≤ 191

/-- Checks that a byte list is well-formed UTF-8 (RFC 3629: no overlong
forms, no surrogates, no code points above U+10FFFF). -/
def utf8Valid : List Nat → Bool
  | [] => true
  | b :: rest =>
    if b < 128 then utf8Valid rest
    else
      match rest with
      | [] => false
      | b1 :: r1 =>
        if 194 ≤ b && b ≤ 223 then utf8Cont b1 && utf8Valid r1
        else
          match r1 with
          | [] => false
          | b2 :: r2 =>
            if b = 224 then (160 ≤ b1 && b1 ≤ 191) && utf8Cont b2 && utf8Valid r2
            else if (225 ≤ b && b ≤ 236) || b = 238 || b = 239 then
              utf8Cont b1 && utf8Cont b2 && utf8Valid r2
            else if b = 237 then (128 ≤ b1 && b1 ≤ 159) && utf8Cont b2 && utf8Valid r2
            else
              match r2 with
              | [] => false
              | b3 :: r3 =>
                if b = 240 then
                  (144 ≤ b1 && b1 ≤ 191) && utf8Cont b2 && utf8Cont b3 && utf8Valid r3
                else if 241 ≤ b && b ≤ 243 then
                  utf8Cont b1 && utf8Cont b2 && utf8Cont b3 && utf8Valid r3
                else if b = 244 then
                  (128 ≤ b1 && b1 ≤ 143) && utf8Cont b2 && utf8Cont b3 && utf8Valid r3
                else false

/-! ## DNS names

Modelled from the spec: `linkerd2_dns_name::Name` is not under `src/`; the
spec describes it as an opaque validator for a "hostname-like string"
(`parse(string) -> Name | ValidationError`).  We model a name as a nonempty
sequence of at most 253 ASCII letters, digits, hyphens and dots. -/

/-- Allowed bytes of a hostname-like name. -/
def dnsByteOk (b : Nat) : Bool :=
  (48 ≤ b && b ≤ 57) || (65 ≤ b && b ≤ 90) || (97 ≤ b && b ≤ 122) || b == 45 || b == 46

/-- Validity of a hostname-like name, as a predicate on its bytes. -/
def dnsNameOk (s : List Nat) : Bool :=
  !s.isEmpty && s.length ≤ 253 && s.all dnsByteOk

/-- Modelled from the spec: a validated hostname-like name
(`linkerd2_dns_name::Name`). -/
def Name : Type := {s : List Nat // dnsNameOk s = true}

instance : DecidableEq Name := fun a b =>
  decidable_of_iff (a.val = b.val) Subtype.ext_iff.symm

/-- Modelled from the spec: `Name::from_str`, accepting exactly the valid
names; failure surfaces as the decoder's InvalidData "Invalid name" error. -/
def Name.fromStr (s : List Nat) : Option Name :=
  if h : dnsNameOk s = true then some ⟨s, h⟩ else none

/-! ## The protobuf message `header.proxy.l5d.io.Header`

Modelled from the spec: the generated prost code is not under `src/`; the
spec gives the schema `{ port: int32 (field 1), name: string (field 2) }`
and the codec interface `encode(fields) -> bytes`,
`decode(bytes) -> fields | SchemaError`.  We model prost's actual wire
behaviour for this message: fields with default values are skipped on
encode; on decode fields may appear in any order and number (last value
wins), unknown fields are skipped by wire type, and string fields are
validated as UTF-8. -/


/-- Wire-level fields of the protobuf `Header` message. -/
structure ProtoHeader where
  port : Int
  name : List Nat
deriving DecidableEq, Repr

/-- Default protobuf message (all fields at their default values). -/
def protoDefault : ProtoHeader := ⟨0, []⟩

/-- Reinterpretation of a signed 64-bit value as unsigned (sign extension of
an `int32` field before varint encoding). -/
def i64ToU64 (i : Int) : Nat := (i % 2 ^ 64).toNat

/-- Truncating reinterpretation of a decoded varint as a signed 32-bit
integer (prost's `as i32`). -/
def u64ToI32 (v : Nat) : Int :=
  if v % 2 ^ 32 < 2 ^ 31 then ((v % 2 ^ 32 : Nat) : Int)
  else ((v % 2 ^ 32 : Nat) : Int) - 2 ^ 32

/-- Truncating cast of a signed 32-bit integer to an unsigned 16-bit value
(Rust's `as u16`). -/
def i32ToU16 (i : Int) : Nat := (i % 65536).toNat

/-- Protobuf encoding of the `Header` message: field 1 (`int32 port`, varint
of the sign-extended value) then field 2 (`string name`, length-delimited),
each omitted when at its default. -/
def encodeProto (h : ProtoHeader) : List Nat :=
  (if h.port = 0 then [] else 8 :: varintEncode (i64ToU64 h.port)) ++
    (if h.name = [] then [] else 18 :: (varintEncode h.name.length ++ h.name))

/-- Decoding loop of the protobuf `Header` message: reads a key varint,
dispatches on field number and wire type, skips unknown fields.  The loop is
structurally recursive on a fuel bound; every iteration consumes at least
one byte, so fuel `bs.length + 1` makes the bound unreachable. -/
def decodeProtoLoop : Nat → List Nat → ProtoHeader → Option ProtoHeader
  | 0, _, _ => none
  | fuel + 1, bs, acc =>
    match bs with
    | [] => some acc
    | _ :: _ =>
      match varintDecode bs with
      | none => none
      | some (key, bs1) =>
        let field := key / 8
        let wt := key % 8
        if field = 0 then none
        else if field = 1 then
          if wt ≠ 0 then none
          else
            match varintDecode bs1 with
            | none => none
            | some (v, bs2) => decodeProtoLoop fuel bs2 { acc with port := u64ToI32 v }
        else if field = 2 then
          if wt ≠ 2 then none
          else
            match varintDecode bs1 with
            | none => none
            | some (len, bs2) =>
              if len ≤ bs2.length then
                if utf8Valid (bs2.take len) then
                  decodeProtoLoop fuel (bs2.drop len) { acc with name := bs2.take len }
                else none
              else none
        else
          match wt with
          | 0 =>
            match varintDecode bs1 with
            | none => none
            | some (_, bs2) => decodeProtoLoop fuel bs2 acc
          | 1 => if 8 ≤ bs1.length then decodeProtoLoop fuel (bs1.drop 8) acc else none
          | 2 =>
            match varintDecode bs1 with
            | none => none
            | some (len, bs2) =>
              if len ≤ bs2.length then decodeProtoLoop fuel (bs2.drop len) acc else none
          | 5 => if 4 ≤ bs1.length then decodeProtoLoop fuel (bs1.drop 4) acc else none
          | _ => none

/-- Decodes the protobuf `Header` message from a byte list. -/
def decodeProto (bs : List Nat) : Option ProtoHeader :=
  decodeProtoLoop (bs.length + 1) bs protoDefault

/-! ## The connection `Header` and its codec (`src/linkerd/connection-header`) -/

/-- The decoded connection header: target port and optional logical name. -/
structure Header where
  port : Nat
  name : Option Name
deriving DecidableEq

/-- Bytes of the optional name: `name.map(to_string).unwrap_or_default()`. -/
def nameBytes : Option Name → List Nat
  | none => []
  | some n => n.val

/-- Error taxonomy of `Header::read_prefaced` and `Header::decode`; the four
constructors carry the four distinct error messages of the source
(`InvalidData "Message length exceeds capacity"`,
`UnexpectedEof "Full header message not provided"`,
`InvalidData "Invalid header message"` and `InvalidData "Invalid name"`). -/
inductive ReadError where
  | oversized
  | truncated
  | invalidMessage
  | invalidName
deriving DecidableEq, Repr

/-- Embeds `Header::encode`: build the protobuf message with
`port: self.port as i32` (exact widening of a `u16`) and the name's string
form (empty when absent), then protobuf-encode it. -/
def Header.encode (h : Header) : List Nat :=
  encodeProto ⟨(h.port : Int), nameBytes h.name⟩

/-- Reads a big-endian 32-bit value from the first four bytes
(`Buf::get_u32`). -/
def be32 : List Nat → Nat
  | a :: b :: c :: d :: _ => ((a * 256 + b) * 256 + c) * 256 + d
  | _ => 0

/-- Big-endian four-byte encoding of a 32-bit value (`BufMut::put_u32`). -/
def be32enc (n : Nat) : List Nat :=
  [n / 2 ^ 24 % 256, n / 2 ^ 16 % 256, n / 2 ^ 8 % 256, n % 256]

/-- Overwrites the bytes of `l` at positions `[i, i + patch.length)` with
`patch` (the back-patch of the reserved length bytes). -/
def writeAt (l : List Nat) (i : Nat) (patch : List Nat) : List Nat :=
  l.take i ++ patch ++ l.drop (i + patch.length)

/-- Embeds `Header::encode_prefaced`: append the preface, advance past four
reserved bytes (modelled as zeros; they are back-patched below), encode the
payload, then overwrite the buffer bytes at absolute positions
`PREFACE.len()..PREFACE_LEN` with the big-endian value
`buf.len() - PREFACE_LEN`.  The source's `assert!(len <= u32::MAX)` is
modelled as returning `none`. -/
def Header.encodePrefaced (h : Header) (buf : List Nat) : Option (List Nat) :=
  let b2 := buf ++ PREFACE ++ [0, 0, 0, 0] ++ h.encode
  let len := b2.length - PREFACE_LEN
  if len ≤ 2 ^ 32 - 1 then some (writeAt b2 PREFACE.length (be32enc len)) else none

/-- Embeds `Header::decode`: protobuf-decode the payload (failure is
`InvalidData "Invalid header message"`), validate a nonempty name through
`Name::from_str` (failure is `InvalidData "Invalid name"`), and truncate the
wire port to `u16`. -/
def Header.decode (bs : List Nat) : Except ReadError (Option Header) :=
  match decodeProto bs with
  | none => .error .invalidMessage
  | some ph =>
    if ph.name = [] then .ok (some ⟨i32ToU16 ph.port, none⟩)
    else
      match Name.fromStr ph.name with
      | none => .error .invalidName
      | some n => .ok (some ⟨i32ToU16 ph.port, some n⟩)

/-! ## Buffer and transport model -/

/-- Modelled from the spec: the caller's growable `BytesMut` buffer, as its
unread bytes plus its allocated capacity (`BytesMut::capacity`, measured
from the current read position as in `bytes`). -/
structure BufMut where
  data : List Nat
  cap : Nat
deriving DecidableEq, Repr

/-- An empty, zero-capacity buffer (`BytesMut::new`). -/
def emptyBuf : BufMut := ⟨[], 0⟩

/-- Modelled from the spec: a transport read appends the currently available
bytes to the growable buffer, which grows to hold them. -/
def bufAppend (b : BufMut) (c : List Nat) : BufMut :=
  ⟨b.data ++ c, max b.cap (b.data.length + c.length)⟩

/-- Embeds `Buf::advance`: drop `n` bytes from the front; the capacity
measured from the read position shrinks accordingly. -/
def bufAdvance (b : BufMut) (n : Nat) : BufMut :=
  ⟨b.data.drop n, b.cap - n⟩

/-- Embeds `BytesMut::reserve`: ensure capacity for `n` more bytes. -/
def bufReserve (b : BufMut) (n : Nat) : BufMut :=
  ⟨b.data, max b.cap (b.data.length + n)⟩

/-- The accumulation loop `while buf.len() < target: read_buf`.  The
transport is the list of chunks successive reads deliver; an exhausted list
or an empty chunk is a read returning zero (end of stream).  Returns whether
the target was reached, the chunks not yet delivered, and the buffer. -/
def fillTo (t : Nat) : List (List Nat) → BufMut → Bool × List (List Nat) × BufMut
  | chunks, b =>
    if t ≤ b.data.length then (true, chunks, b)
    else
      match chunks with
      | [] => (false, [], b)
      | c :: rest => if c.isEmpty then (false, rest, b) else fillTo t rest (bufAppend b c)

/-- Embeds `Header::read_prefaced`: accumulate `PREFACE_LEN` bytes (end of
stream is a header-absent result), compare the preface prefix (mismatch is a
header-absent result), advance past the preface, read the big-endian message
length, reject lengths beyond the remaining capacity plus `PREFACE_LEN`,
reserve and accumulate the message (end of stream is now an error), split
the message off and decode it.  Returns the result together with the final
buffer and the chunks the transport still holds. -/
def Header.readPrefaced (chunks : List (List Nat)) (b : BufMut) :
    Except ReadError (Option Header) × BufMut × List (List Nat) :=
  match fillTo PREFACE_LEN chunks b with
  | (false, rest, b1) => (.ok none, b1, rest)
  | (true, rest, b1) =>
    if b1.data.take PREFACE.length ≠ PREFACE then (.ok none, b1, rest)
    else
      let b2 := bufAdvance b1 PREFACE.length
      let msgLen := be32 b2.data
      let b3 := bufAdvance b2 4
      if b3.cap + PREFACE_LEN < msgLen then (.error .oversized, b3, rest)
      else
        match fillTo msgLen rest (bufReserve b3 msgLen) with
        | (false, rest2, b5) => (.error .truncated, b5, rest2)
        | (true, rest2, b5) =>
          let msg := b5.data.take msgLen
          (Header.decode msg, bufAdvance b5 msgLen, rest2)

/-- Embeds the `Detect` implementation of `DetectHeader`: a stateless
pass-through to `Header::read_prefaced`. -/
def detectHeader (chunks : List (List Nat)) (b : BufMut) :
    Except ReadError (Option Header) × BufMut × List (List Nat) :=
  Header.readPrefaced chunks b



/-! ## Concrete fixtures used in witnesses and counterexamples -/

/-- Bytes of the test name `"foo.bar.example.com"`. -/
def nmFoo : List Nat :=
  [102, 111, 111, 46, 98, 97, 114, 46, 101, 120, 97, 109, 112, 108, 101, 46, 99, 111, 109]

/-- The test name `"foo.bar.example.com"`. -/
def nameFoo : Name := ⟨nmFoo, by decide⟩

/-- The test header `Header { port: 4040, name: "foo.bar.example.com" }`. -/
def hdrFoo : Header := ⟨4040, some nameFoo⟩

/-- The prefaced frame of the test header. -/
def frameFoo : List Nat := (Header.encodePrefaced hdrFoo []).getD []

/-- The trailing test bytes `b"12345"`. -/
def trailing5 : List Nat := [49, 50, 51, 52, 53]

/-- Bytes of the longer name `"foobazzz.bar.example.com"` (24 bytes, giving
a payload longer than `PREFACE_LEN`). -/
def nmLong : List Nat :=
  [102, 111, 111, 98, 97, 122, 122, 122, 46, 98, 97, 114, 46, 101, 120, 97, 109,
   112, 108, 101, 46, 99, 111, 109]

/-- The longer test name. -/
def nameLong : Name := ⟨nmLong, by decide⟩

/-- A header whose encoded payload is 29 bytes long. -/
def hdrLong : Header := ⟨4040, some nameLong⟩

/-- The prefaced frame of the longer header. -/
def frameLong : List Nat := (Header.encodePrefaced hdrLong []).getD []

/-- Bytes of `b"GET / HTTP/1.1\r\nHost: example.com\r\n\r\n"`. -/
def httpBytes : List Nat :=
  [71, 69, 84, 32, 47, 32, 72, 84, 84, 80, 47, 49, 46, 49, 13, 10, 72, 111, 115,
   116, 58, 32, 101, 120, 97, 109, 112, 108, 101, 46, 99, 111, 109, 13, 10, 13, 10]



/-- A stream whose frame declares a `0xFFFFFFFF`-byte message. -/
def overszStream : List Nat := PREFACE ++ [255, 255, 255, 255] ++ [0]

/-- A stream that matches the preface, declares five payload bytes, but
ends after two. -/
def truncStream : List Nat := PREFACE ++ [0, 0, 0, 5] ++ [1, 2]


end ConnHeader

/-!
## Metrics report formatter (`src/linkerd/http-metrics/src/report.rs`)

The formatter renders the registry into the Prometheus text format.  The
output written to the `fmt::Formatter` is modelled as the returned `String`;
writing to a string buffer cannot fail, and no other failure exists in the
source, but the `fmt::Result` signature is kept as an `Except`.  Mutex lock
results are modelled as `Option`: `none` is a failed (poisoned) lock. -/

namespace HttpMetrics

/-- Response-class metrics (`ClassMetrics`): a response counter. -/
structure ClassMetrics where
  total : Nat
deriving DecidableEq, Repr

/-- Per-status metrics (`StatusMetrics`): a latency histogram (modelled as
its recorded values) and per-class counters. -/
structure StatusMetrics where
  latency : List Nat
  byClass : List (String × ClassMetrics)
deriving DecidableEq, Repr

/-- Per-target metrics (`Metrics`): a request counter, per-status metrics,
and the time of last activity (used by retention). -/
structure Metrics where
  total : Nat
  byStatus : List (Option Nat × StatusMetrics)
  lastUpdate : Nat
deriving DecidableEq, Repr

/-- The registry keyed by target labels.  Each target's metrics sit behind a
mutex; the `Option` is the outcome of `tm.lock()` at formatting time
(`none` for a poisoned lock, which the formatter skips). -/
structure Registry where
  byTarget : List (String × Option Metrics)
deriving DecidableEq, Repr

/-- Formatting errors of the `fmt::Result` signature (never produced when
writing to a string buffer). -/
inductive FmtError where
  | writer
deriving DecidableEq, Repr

/-- The `Report` handle: a metric-name prefix, the retention window, and the
outcome of `self.registry.lock()` at formatting time (`none` for a poisoned
registry mutex). -/
structure Report where
  prefixKey : String
  retainIdle : Nat
  registryLock : Option Registry
deriving DecidableEq, Repr

/-- Renders one labelled metric line (`FmtMetric::fmt_metric_labeled`). -/
def fmtLine (name : String) (labels : String) (v : Nat) : String :=
  name ++ "\x7b" ++ labels ++ "\x7d " ++ toString v ++ "\n"

/-- Renders the help header of a metric (`Metric::fmt_help`). -/
def fmtHelp (name : String) (help : String) : String :=
  "# HELP " ++ name ++ " " ++ help ++ "\n# TYPE " ++ name ++ " counter\n"

/-- Embeds `Registry::fmt_by_target`: one line per target whose mutex
locks; poisoned targets are skipped. -/
def fmtByTarget (reg : Registry) (name : String) (get : Metrics → Nat) : String :=
  String.join (reg.byTarget.map fun p =>
    match p.2 with
    | none => ""
    | some m => fmtLine name p.1 (get m))

/-- Renders a status label (`Status` / `FmtLabels`). -/
def statusLabel (s : Option Nat) : String :=
  match s with
  | none => ""
  | some code => "status_code=\x22" ++ toString code ++ "\x22"

/-- Embeds `Registry::fmt_by_status`: one line per (target, status) pair
under a live target lock. -/
def fmtByStatus (reg : Registry) (name : String) (get : StatusMetrics → Nat) : String :=
  String.join (reg.byTarget.map fun p =>
    match p.2 with
    | none => ""
    | some m =>
      String.join (m.byStatus.map fun q =>
        fmtLine name (p.1 ++ "," ++ statusLabel q.1) (get q.2)))

/-- Embeds `Registry::fmt_by_class`: one line per (target, status, class)
triple under a live target lock. -/
def fmtByClass (reg : Registry) (name : String) (get : ClassMetrics → Nat) : String :=
  String.join (reg.byTarget.map fun p =>
    match p.2 with
    | none => ""
    | some m =>
      String.join (m.byStatus.map fun q =>
        String.join (q.2.byClass.map fun r =>
          fmtLine name (p.1 ++ "," ++ statusLabel q.1 ++ "," ++ r.1) (get r.2))))

/-- Modelled from the spec: `Registry::retain_since` is not under `src/`;
the spec says the formatter "prunes entries whose last activity is older
than a configured retention window". -/
def retainSince (reg : Registry) (since : Nat) : Registry :=
  ⟨reg.byTarget.filter fun p =>
    match p.2 with
    | none => true
    | some m => since ≤ m.lastUpdate⟩

/-- Histogram summary count used for the latency metric line. -/
def latencyCount (s : StatusMetrics) : Nat := s.latency.length

/-- Embeds `Report::fmt_metrics`: a failed registry lock returns `Ok` with
nothing written; otherwise prune idle targets, return `Ok` with nothing
written when the registry is empty, and otherwise render the three metric
sections with their help headers. -/
def fmtMetrics (rep : Report) (now : Nat) : Except FmtError String :=
  match rep.registryLock with
  | none => .ok ""
  | some reg0 =>
    let reg := retainSince reg0 (now - rep.retainIdle)
    if reg.byTarget.isEmpty then .ok ""
    else
      .ok (fmtHelp (rep.prefixKey ++ "request_total") "Total count of HTTP requests." ++
        fmtByTarget reg (rep.prefixKey ++ "request_total") (fun m => m.total) ++
        fmtHelp (rep.prefixKey ++ "response_latency_ms")
          "Elapsed times between a request and its response" ++
        fmtByStatus reg (rep.prefixKey ++ "response_latency_ms") latencyCount ++
        fmtHelp (rep.prefixKey ++ "response_total") "Total count of HTTP responses." ++
        fmtByClass reg (rep.prefixKey ++ "response_total") (fun c => c.total))

end HttpMetrics

namespace ConnHeader

/-! ## Varint round-trip -/

/-- Decoding the varint encoding of `n` from position `i` recovers `n`
scaled into place, and leaves the trailing bytes untouched. -/
theorem varintDecodeAux_encodeAux (fuel : Nat) :
    ∀ (n i acc : Nat) (rest : List Nat), 1 ≤ fuel → n < 128 ^ fuel → fuel + i ≤ 10 →
      varintDecodeAux (varintEncodeAux fuel n ++ rest) i acc =
        some ((acc + n * 128 ^ i) % 2 ^ 64, rest) := by
  induction fuel with
  | zero => intro n i acc rest hf; omega
  | succ f ih =>
    intro n i acc rest _ hn hfi
    have hi : ¬ 10 ≤ i := by omega
    by_cases h128 : n < 128
    · simp [varintEncodeAux, varintDecodeAux, h128, hi]
    · have hf1 : 1 ≤ f := by
        by_contra hc
        have hf0 : f = 0 := by omega
        rw [hf0] at hn
        simp at hn
        omega
      simp only [varintEncodeAux, if_neg h128, List.cons_append, varintDecodeAux]
      rw [if_neg hi, if_neg (by omega)]
      have hb : (n % 128 + 128) % 128 = n % 128 := by omega
      rw [hb]
      have hdivlt : n / 128 < 128 ^ f := by
        have hps : (128 : Nat) ^ (f + 1) = 128 ^ f * 128 := by rw [pow_succ]
        rw [hps] at hn
        omega
      rw [ih (n / 128) (i + 1) (acc + n % 128 * 128 ^ i) rest hf1 hdivlt (by omega)]
      congr 2
      have hsplit : n % 128 * 128 ^ i + n / 128 * 128 ^ (i + 1) = n * 128 ^ i := by
        rw [pow_succ]
        have hdm := Nat.div_add_mod n 128
        calc n % 128 * 128 ^ i + n / 128 * (128 ^ i * 128)
            = (128 * (n / 128) + n % 128) * 128 ^ i := by ring
        _ = n * 128 ^ i := by rw [hdm]
      omega

/-- Round-trip of the varint codec on 64-bit values. -/
theorem varintDecode_encode {n : Nat} (hn : n < 2 ^ 64) (rest : List Nat) :
    varintDecode (varintEncode n ++ rest) = some (n, rest) := by
  have h := varintDecodeAux_encodeAux 10 n 0 0 rest (by omega)
    (lt_trans hn (by norm_num)) (by omega)
  unfold varintDecode varintEncode
  rw [h, pow_zero, mul_one, Nat.zero_add, Nat.mod_eq_of_lt hn]

/-- Round-trip of the varint codec with no trailing bytes. -/
theorem varintDecode_encode_nil {n : Nat} (hn : n < 2 ^ 64) :
    varintDecode (varintEncode n) = some (n, []) := by
  have := varintDecode_encode hn []
  simpa using this

/-- Decoding a single small byte. -/
theorem varintDecode_small {b : Nat} (hb : b < 128) (rest : List Nat) :
    varintDecode (b :: rest) = some (b, rest) := by
  have h : varintEncode b = [b] := by simp [varintEncode, varintEncodeAux, hb]
  have := varintDecode_encode (n := b) (by omega) rest
  simpa [h] using this

/-- The varint encoding is never empty. -/
theorem varintEncode_ne_nil (n : Nat) : varintEncode n ≠ [] := by
  by_cases h : n < 128 <;> simp [varintEncode, varintEncodeAux, h]

/-- The varint encoding of a 64-bit value takes at most ten bytes. -/
theorem varintEncodeAux_length_le (fuel : Nat) :
    ∀ n, (varintEncodeAux fuel n).length ≤ fuel := by
  induction fuel with
  | zero => intro n; simp [varintEncodeAux]
  | succ f ih =>
    intro n
    by_cases h : n < 128
    · simp [varintEncodeAux, h]
    · simp only [varintEncodeAux, if_neg h, List.length_cons]
      have := ih (n / 128)
      omega

/-! ## ASCII bytes are valid UTF-8 -/

/-- A list of bytes below 128 is valid UTF-8. -/
theorem utf8Valid_of_ascii : ∀ {s : List Nat}, (∀ b ∈ s, b < 128) → utf8Valid s = true := by
  intro s
  induction s with
  | nil => intro _; rfl
  | cons b tl ih =>
    intro h
    have hb : b < 128 := h b (by simp)
    have htl : utf8Valid tl = true := ih fun x hx => h x (by simp [hx])
    rw [utf8Valid.eq_def]
    simp [hb, htl]

/-- Every allowed name byte is ASCII. -/
theorem dnsByteOk_lt_128 {b : Nat} (h : dnsByteOk b = true) : b < 128 := by
  simp only [dnsByteOk, Bool.or_eq_true, Bool.and_eq_true, decide_eq_true_eq,
    beq_iff_eq] at h
  omega

/-- Valid names are nonempty ASCII byte lists. -/
theorem dnsNameOk_spec {s : List Nat} (h : dnsNameOk s = true) :
    s ≠ [] ∧ ∀ b ∈ s, b < 128 := by
  simp only [dnsNameOk, Bool.and_eq_true, Bool.not_eq_true', List.all_eq_true,
    decide_eq_true_eq] at h
  refine ⟨?_, fun b hb => dnsByteOk_lt_128 (h.2 b hb)⟩
  intro hnil
  rw [hnil] at h
  simp at h

/-- Valid names hold at most 253 bytes. -/
theorem dnsNameOk_length {s : List Nat} (h : dnsNameOk s = true) : s.length ≤ 253 := by
  simp only [dnsNameOk, Bool.and_eq_true, decide_eq_true_eq] at h
  exact h.1.2

/-! ## Protobuf round-trip -/

/-- The decode loop consumes a well-formed `name` field and stores its
bytes. -/
theorem decodeProtoLoop_namePart (nm : List Nat) (acc : ProtoHeader)
    (hnm : utf8Valid nm = true) (hlen : nm.length < 2 ^ 64) :
    ∀ fuel, 2 ≤ fuel →
      decodeProtoLoop fuel (18 :: (varintEncode nm.length ++ nm)) acc =
        some { acc with name := nm } := by
  intro fuel hfuel
  obtain ⟨f, rfl⟩ : ∃ f, fuel = f + 2 := ⟨fuel - 2, by omega⟩
  simp only [decodeProtoLoop]
  rw [varintDecode_small (by omega)]
  norm_num
  rw [varintDecode_encode hlen nm]
  simp [List.take_length, List.drop_length, hnm, decodeProtoLoop]

/-- The decode loop recovers an encoded message whose port is a
non-negative 31-bit value and whose name is valid UTF-8. -/
theorem decodeProtoLoop_encode (ph : ProtoHeader) (hp0 : 0 ≤ ph.port)
    (hp : ph.port < 2 ^ 31) (hnm : utf8Valid ph.name = true)
    (hnmlen : ph.name.length < 2 ^ 64) :
    ∀ fuel, 3 ≤ fuel →
      decodeProtoLoop fuel (encodeProto ph) protoDefault = some ph := by
  intro fuel hfuel
  have hval : i64ToU64 ph.port = ph.port.toNat := by
    unfold i64ToU64
    rw [Int.emod_eq_of_lt hp0 (by calc ph.port < 2 ^ 31 := hp
      _ < 2 ^ 64 := by norm_num)]
  have hvlt : ph.port.toNat < 2 ^ 64 := by omega
  have hcast : u64ToI32 ph.port.toNat = ph.port := by
    unfold u64ToI32
    split
    · omega
    · omega
  by_cases hport : ph.port = 0
  · by_cases hname : ph.name = []
    · have hdef : ph = protoDefault := by
        cases ph
        simp_all [protoDefault]
      obtain ⟨f, rfl⟩ : ∃ f, fuel = f + 3 := ⟨fuel - 3, by omega⟩
      rw [hdef]
      simp [encodeProto, protoDefault, decodeProtoLoop]
    · have henc : encodeProto ph = 18 :: (varintEncode ph.name.length ++ ph.name) := by
        simp [encodeProto, hport, hname]
      rw [henc, decodeProtoLoop_namePart ph.name protoDefault hnm hnmlen fuel (by omega)]
      cases ph
      simp_all [protoDefault]
  · obtain ⟨f, rfl⟩ : ∃ f, fuel = f + 3 := ⟨fuel - 3, by omega⟩
    by_cases hname : ph.name = []
    · have henc : encodeProto ph = 8 :: (varintEncode ph.port.toNat ++ []) := by
        simp [encodeProto, hport, hname, hval]
      rw [henc]
      simp only [decodeProtoLoop]
      rw [varintDecode_small (by omega)]
      norm_num
      rw [varintDecode_encode_nil hvlt]
      simp only [decodeProtoLoop, hcast]
      cases ph
      simp_all [protoDefault]
    · have henc : encodeProto ph =
          8 :: (varintEncode ph.port.toNat ++
            (18 :: (varintEncode ph.name.length ++ ph.name))) := by
        simp [encodeProto, hport, hname, hval]
      rw [henc]
      simp only [decodeProtoLoop]
      rw [varintDecode_small (by omega)]
      norm_num
      rw [varintDecode_encode hvlt]
      norm_num
      rw [varintDecode_small (by omega)]
      norm_num
      rw [varintDecode_encode hnmlen]
      simp only [List.take_length, List.drop_length, hnm, if_true, le_refl, hcast,
        decodeProtoLoop]

/-- Round-trip of the protobuf codec on messages the source produces. -/
theorem decodeProto_encodeProto (ph : ProtoHeader) (hp0 : 0 ≤ ph.port)
    (hp : ph.port < 2 ^ 31) (hnm : utf8Valid ph.name = true)
    (hnmlen : ph.name.length < 2 ^ 64) :
    decodeProto (encodeProto ph) = some ph := by
  unfold decodeProto
  by_cases hport : ph.port = 0
  · by_cases hname : ph.name = []
    · have hdef : ph = protoDefault := by
        cases ph
        simp_all [protoDefault]
      rw [hdef]
      simp [encodeProto, protoDefault, decodeProtoLoop]
    · refine decodeProtoLoop_encode ph hp0 hp hnm hnmlen _ ?_
      have h1 : (encodeProto ph).length =
          1 + (varintEncode ph.name.length).length + ph.name.length := by
        simp [encodeProto, hport, hname]
        omega
      have h2 : 1 ≤ (varintEncode ph.name.length).length := by
        have := varintEncode_ne_nil ph.name.length
        cases hv : varintEncode ph.name.length with
        | nil => exact absurd hv this
        | cons a l => simp
      have h3 : 1 ≤ ph.name.length := by
        cases hn : ph.name with
        | nil => exact absurd hn hname
        | cons a l => simp
      omega
  · refine decodeProtoLoop_encode ph hp0 hp hnm hnmlen _ ?_
    have h1 : (encodeProto ph).length =
        1 + (varintEncode (i64ToU64 ph.port)).length +
          (if ph.name = [] then [] else
            18 :: (varintEncode ph.name.length ++ ph.name)).length := by
      simp [encodeProto, hport]
      omega
    have h2 : 1 ≤ (varintEncode (i64ToU64 ph.port)).length := by
      have := varintEncode_ne_nil (i64ToU64 ph.port)
      cases hv : varintEncode (i64ToU64 ph.port) with
      | nil => exact absurd hv this
      | cons a l => simp
    omega


/-! ## Round-trip of the header codec -/

/-- The name bytes of any header are valid UTF-8. -/
theorem utf8Valid_nameBytes (h : Header) : utf8Valid (nameBytes h.name) = true := by
  cases hn : h.name with
  | none => rfl
  | some n => exact utf8Valid_of_ascii (dnsNameOk_spec n.property).2

/-- The name bytes of any header fit in 64 bits. -/
theorem nameBytes_length_lt (h : Header) : (nameBytes h.name).length < 2 ^ 64 := by
  cases hn : h.name with
  | none => simp [nameBytes]
  | some n =>
    have := dnsNameOk_length n.property
    simp only [nameBytes]
    omega

/-- Decoding an encoded header recovers it (`decode . encode = id` for
16-bit ports). -/
theorem Header.decode_encode (h : Header) (hp : h.port < 65536) :
    Header.decode h.encode = .ok (some h) := by
  obtain ⟨p, nm⟩ := h
  simp only at hp
  have hdp := decodeProto_encodeProto ⟨(p : Int), nameBytes nm⟩
    (by show (0 : Int) ≤ ((p : Nat) : Int); exact Int.natCast_nonneg _)
    (by show ((p : Nat) : Int) < 2 ^ 31; omega)
    (utf8Valid_nameBytes ⟨p, nm⟩) (nameBytes_length_lt ⟨p, nm⟩)
  unfold Header.decode Header.encode
  simp only at hdp
  rw [hdp]
  have hport : i32ToU16 ((p : Nat) : Int) = p := by
    unfold i32ToU16
    omega
  cases nm with
  | none => simp [nameBytes, hport]
  | some n =>
    have hne : n.val ≠ [] := (dnsNameOk_spec n.property).1
    simp only [nameBytes, if_neg hne]
    unfold Name.fromStr
    rw [dif_pos n.property]
    simp [hport]

/-! ## Shape of the prefaced frame -/

/-- The four-byte length field. -/
theorem be32enc_length (n : Nat) : (be32enc n).length = 4 := rfl

/-- Reading back a big-endian 32-bit field. -/
theorem be32_be32enc (n : Nat) (hn : n < 2 ^ 32) (r : List Nat) :
    be32 (be32enc n ++ r) = n := by
  simp only [be32enc, List.cons_append, List.nil_append, be32]
  omega

/-- The encoded payload is always short (at most 275 bytes). -/
theorem Header.encode_length_le (h : Header) : h.encode.length ≤ 275 := by
  unfold Header.encode encodeProto
  have h1 := varintEncodeAux_length_le 10 (i64ToU64 ((h.port : Nat) : Int))
  have h2 := varintEncodeAux_length_le 10 (nameBytes h.name).length
  have h3 : (nameBytes h.name).length ≤ 253 := by
    cases hn : h.name with
    | none => simp [nameBytes]
    | some n =>
      have := dnsNameOk_length n.property
      simp only [nameBytes]
      omega
  simp only [List.length_append, varintEncode]
  split
  · split
    · simp
    · simp only [List.length_nil, List.length_cons, List.length_append]
      omega
  · split
    · simp only [List.length_nil, List.length_cons, List.length_append]
      omega
    · simp only [List.length_cons, List.length_append]
      omega

/-- On an empty buffer, `encode_prefaced` produces exactly
`PREFACE ++ big-endian payload length ++ payload`. -/
theorem Header.encodePrefaced_eq (h : Header) :
    Header.encodePrefaced h [] =
      some (PREFACE ++ be32enc h.encode.length ++ h.encode) := by
  have hb := Header.encode_length_le h
  simp only [Header.encodePrefaced]
  have hlen : ([] ++ PREFACE ++ [0, 0, 0, 0] ++ h.encode).length - PREFACE_LEN =
      h.encode.length := by
    simp [PREFACE, PREFACE_LEN]
  rw [hlen]
  rw [if_pos (by omega)]
  rfl


/-! ## Behaviour of the accumulation loop -/

/-- A buffer already at its target is returned untouched. -/
theorem fillTo_of_le {t : Nat} {chunks : List (List Nat)} {b : BufMut}
    (h : t ≤ b.data.length) : fillTo t chunks b = (true, chunks, b) := by
  cases chunks <;> simp [fillTo, h]

/-- Nothing is lost by the loop: the final buffer plus the undelivered
chunks hold exactly the initial buffer plus the whole stream. -/
theorem fillTo_conserve {t : Nat} :
    ∀ {chunks : List (List Nat)} {b : BufMut} {r : Bool} {rest : List (List Nat)}
      {b' : BufMut}, fillTo t chunks b = (r, rest, b') →
      b'.data ++ rest.flatten = b.data ++ chunks.flatten := by
  intro chunks
  induction chunks with
  | nil =>
    intro b r rest b' h
    by_cases hle : t ≤ b.data.length <;> simp_all [fillTo]
  | cons c cs ih =>
    intro b r rest b' h
    by_cases hle : t ≤ b.data.length
    · simp_all [fillTo]
    · simp only [fillTo, if_neg hle] at h
      by_cases hc : c.isEmpty
      · have hcnil : c = [] := by simpa [List.isEmpty_iff] using hc
        simp only [if_pos hc] at h
        obtain ⟨rfl, rfl, rfl⟩ : r = false ∧ rest = cs ∧ b' = b := by
          simpa [Prod.ext_iff] using h.symm
        simp [hcnil]
      · simp only [if_neg hc] at h
        have := ih h
        simp only [bufAppend] at this
        simp [this, List.append_assoc]

/-- Characterization of a successful accumulation: the loop returns either
immediately, or after appending a nonempty prefix of the chunk list whose
bytes take the buffer to at least the target; the capacity grows exactly to
hold the data. -/
theorem fillTo_true_spec {t : Nat} :
    ∀ {chunks : List (List Nat)} {b : BufMut} {rest : List (List Nat)} {b' : BufMut},
      fillTo t chunks b = (true, rest, b') →
      (b' = b ∧ rest = chunks ∧ t ≤ b.data.length) ∨
      (b.data.length < t ∧ ∃ cs, cs ≠ [] ∧ chunks = cs ++ rest ∧
        b'.data = b.data ++ cs.flatten ∧ t ≤ b'.data.length ∧
        b'.cap = max b.cap b'.data.length) := by
  intro chunks
  induction chunks with
  | nil =>
    intro b rest b' h
    by_cases hle : t ≤ b.data.length <;> simp_all [fillTo]
  | cons c cs ih =>
    intro b rest b' h
    by_cases hle : t ≤ b.data.length
    · left
      rw [fillTo_of_le hle] at h
      simp only [Prod.mk.injEq] at h
      exact ⟨h.2.2.symm, h.2.1.symm, hle⟩
    · right
      simp only [fillTo, if_neg hle] at h
      by_cases hc : c.isEmpty
      · have hcnil : c = [] := by simpa [List.isEmpty_iff] using hc
        rw [if_pos hc] at h
        exact absurd h (by simp)
      · simp only [if_neg hc] at h
        refine ⟨by omega, ?_⟩
        rcases ih h with ⟨rfl, rfl, hlen⟩ | ⟨hlt, cs2, hcs2ne, rfl, hdata, hlen, hcap⟩
        · refine ⟨[c], by simp, by simp, by simp [bufAppend], ?_, ?_⟩
          · simpa [bufAppend] using hlen
          · simp [bufAppend]
        · refine ⟨c :: cs2, by simp, by simp, ?_, hlen, ?_⟩
          · simp only [bufAppend] at hdata
            simp [hdata, List.append_assoc]
          · rw [hcap]
            simp only [bufAppend]
            have hle2 : b.data.length + c.length ≤ b'.data.length := by
              have hget := congrArg List.length hdata
              simp only [bufAppend, List.length_append] at hget
              omega
            omega

/-- Characterization of a failed accumulation over a well-formed transport:
the whole stream was delivered, yet the target was not reached. -/
theorem fillTo_false_spec {t : Nat} :
    ∀ {chunks : List (List Nat)} {b : BufMut} {rest : List (List Nat)} {b' : BufMut},
      fillTo t chunks b = (false, rest, b') → (∀ c ∈ chunks, c ≠ []) →
      rest = [] ∧ b'.data = b.data ++ chunks.flatten ∧ b'.data.length < t := by
  intro chunks
  induction chunks with
  | nil =>
    intro b rest b' h _
    by_cases hle : t ≤ b.data.length <;> simp_all [fillTo]
  | cons c cs ih =>
    intro b rest b' h hwf
    by_cases hle : t ≤ b.data.length
    · simp_all [fillTo]
    · simp only [fillTo, if_neg hle] at h
      by_cases hc : c.isEmpty
      · exact absurd (by simpa [List.isEmpty_iff] using hc) (hwf c (by simp))
      · simp only [if_neg hc] at h
        have hr := ih h fun x hx => hwf x (by simp [hx])
        refine ⟨hr.1, ?_, hr.2.2⟩
        have := hr.2.1
        simp only [bufAppend] at this
        simp [this, List.append_assoc]

/-- Over a well-formed transport the loop reaches any target covered by the
stream. -/
theorem fillTo_reaches {t : Nat} {chunks : List (List Nat)} {b : BufMut}
    (hwf : ∀ c ∈ chunks, c ≠ []) (htot : t ≤ b.data.length + chunks.flatten.length) :
    (fillTo t chunks b).1 = true := by
  rcases hres : fillTo t chunks b with ⟨r, rest, b2⟩
  cases r with
  | true => rfl
  | false =>
    obtain ⟨-, hdata, hlen⟩ := fillTo_false_spec hres hwf
    rw [hdata] at hlen
    simp only [List.length_append] at hlen
    omega

/-- Delivering a single sufficient chunk fills the empty buffer with the
whole chunk and sizes its capacity to fit. -/
theorem fillTo_single {t : Nat} {S : List Nat} (h0 : 0 < t) (hS : t ≤ S.length) :
    fillTo t [S] emptyBuf = (true, [], ⟨S, S.length⟩) := by
  have hne : ¬ S = [] := by
    intro hnil
    subst hnil
    simp at hS
    omega
  simp [fillTo, emptyBuf, bufAppend, hne, hS, show ¬ t ≤ 0 by omega]


/-! ## Claim theorems -/

/-- C1: encoding a header, appending arbitrary trailing bytes `T`, then
running detection over the stream carrying those bytes, decodes the header
back and leaves exactly `T` in the caller's buffer, with the transport
drained. -/
theorem c1_trailing_bytes_preserved (h : Header) (hp : h.port < 65536)
    (F T : List Nat) (hF : Header.encodePrefaced h [] = some F) :
    (Header.readPrefaced [F ++ T] emptyBuf).1 = .ok (some h) ∧
    (Header.readPrefaced [F ++ T] emptyBuf).2.1.data = T ∧
    (Header.readPrefaced [F ++ T] emptyBuf).2.2 = [] := by
  rw [Header.encodePrefaced_eq] at hF
  have hFe : PREFACE ++ be32enc h.encode.length ++ h.encode = F := by
    injection hF
  subst hFe
  have hLle : h.encode.length ≤ 275 := Header.encode_length_le h
  have hN : (PREFACE ++ be32enc h.encode.length ++ h.encode ++ T).length =
      28 + h.encode.length + T.length := by
    simp [PREFACE, be32enc]
    omega
  have hfill := fillTo_single (t := PREFACE_LEN)
    (S := PREFACE ++ be32enc h.encode.length ++ h.encode ++ T)
    (by norm_num [PREFACE_LEN, PREFACE]) (by rw [hN]; norm_num [PREFACE_LEN, PREFACE]; omega)
  have htake : (PREFACE ++ be32enc h.encode.length ++ h.encode ++ T).take PREFACE.length =
      PREFACE := by
    rw [List.append_assoc, List.append_assoc]
    exact List.take_left _ _
  have hdrop24 : (PREFACE ++ be32enc h.encode.length ++ h.encode ++ T).drop PREFACE.length =
      be32enc h.encode.length ++ (h.encode ++ T) := by
    rw [List.append_assoc, List.append_assoc]
    exact List.drop_left _ _
  have hl32 : h.encode.length < 2 ^ 32 := by omega
  have hbe := be32_be32enc h.encode.length hl32 (h.encode ++ T)
  have hdrop4 : (be32enc h.encode.length ++ (h.encode ++ T)).drop 4 = h.encode ++ T := by
    have h4 : (4 : Nat) = (be32enc h.encode.length).length := rfl
    rw [h4]
    exact List.drop_left _ _
  have htakeL : (h.encode ++ T).take h.encode.length = h.encode := List.take_left _ _
  have hdropL : (h.encode ++ T).drop h.encode.length = T := List.drop_left _ _
  simp only [Header.readPrefaced, hfill, bufAdvance, hdrop24, htake, ne_eq,
    not_true_eq_false, if_false, hbe, hdrop4]
  rw [if_neg (by simp [PREFACE_LEN, PREFACE]; omega)]
  rw [fillTo_of_le (by simp [bufReserve])]
  simp only [bufReserve, htakeL, hdropL, Header.decode_encode h hp]
  exact ⟨trivial, trivial, trivial⟩

/-! ## Helpers for the detection state machine -/

/-- The decoder returns either a header or one of its two decode errors;
it never reports the absent-header result or the frame reader's errors. -/
theorem Header.decode_cases (bs : List Nat) :
    (∃ h, Header.decode bs = .ok (some h)) ∨
      Header.decode bs = .error .invalidMessage ∨
      Header.decode bs = .error .invalidName := by
  unfold Header.decode
  cases hd : decodeProto bs with
  | none => simp
  | some ph =>
    by_cases hn : ph.name = []
    · simp [hn]
    · simp only [if_neg hn]
      cases hf : Name.fromStr ph.name with
      | none => simp
      | some n => simp

/-- Advancing twice advances by the sum. -/
theorem bufAdvance_bufAdvance (b : BufMut) (m n : Nat) :
    bufAdvance (bufAdvance b m) n = bufAdvance b (m + n) := by
  simp only [bufAdvance, List.drop_drop, BufMut.mk.injEq]
  constructor
  · trivial
  · omega

/-- A well-formed chunk list with no bytes is empty. -/
theorem eq_nil_of_flatten_eq_nil {l : List (List Nat)} (hwf : ∀ c ∈ l, c ≠ [])
    (h : l.flatten = []) : l = [] := by
  cases l with
  | nil => rfl
  | cons c cs =>
    exfalso
    simp only [List.flatten_cons, List.append_eq_nil] at h
    exact hwf c (by simp) h.1

/-- Unfolds `read_prefaced` once the preface accumulation succeeded. -/
theorem readPrefaced_of_fill_true {chunks : List (List Nat)} {b : BufMut}
    {rest : List (List Nat)} {b1 : BufMut}
    (hfill : fillTo PREFACE_LEN chunks b = (true, rest, b1)) :
    Header.readPrefaced chunks b =
      if b1.data.take PREFACE.length ≠ PREFACE then (.ok none, b1, rest)
      else
        if (bufAdvance b1 PREFACE_LEN).cap + PREFACE_LEN <
            be32 (b1.data.drop PREFACE.length) then
          (.error .oversized, bufAdvance b1 PREFACE_LEN, rest)
        else
          match fillTo (be32 (b1.data.drop PREFACE.length)) rest
              (bufReserve (bufAdvance b1 PREFACE_LEN)
                (be32 (b1.data.drop PREFACE.length))) with
          | (false, rest2, b5) => (.error .truncated, b5, rest2)
          | (true, rest2, b5) =>
            (Header.decode (b5.data.take (be32 (b1.data.drop PREFACE.length))),
              bufAdvance b5 (be32 (b1.data.drop PREFACE.length)), rest2) := by
  simp only [Header.readPrefaced, hfill, bufAdvance_bufAdvance]
  rfl

/-- Unfolds `read_prefaced` when the stream ended before the preface
threshold. -/
theorem readPrefaced_of_fill_false {chunks : List (List Nat)} {b : BufMut}
    {rest : List (List Nat)} {b1 : BufMut}
    (hfill : fillTo PREFACE_LEN chunks b = (false, rest, b1)) :
    Header.readPrefaced chunks b = (.ok none, b1, rest) := by
  simp only [Header.readPrefaced, hfill]

/-- C2 (amended): detection reports an absent header exactly when the
stream is shorter than `PREFACE_LEN = 28` bytes or its first `24` bytes
differ from the preface, and in both cases every byte read from the
transport remains in the caller's buffer, nothing consumed or discarded. -/
theorem c2_not_present_iff (chunks : List (List Nat)) (hwf : ∀ c ∈ chunks, c ≠ []) :
    ((Header.readPrefaced chunks emptyBuf).1 = .ok none ↔
      (chunks.flatten.length < PREFACE_LEN ∨
        chunks.flatten.take PREFACE.length ≠ PREFACE)) ∧
    ((Header.readPrefaced chunks emptyBuf).1 = .ok none →
      (Header.readPrefaced chunks emptyBuf).2.1.data ++
        (Header.readPrefaced chunks emptyBuf).2.2.flatten = chunks.flatten) := by
  rcases hfill : fillTo PREFACE_LEN chunks emptyBuf with ⟨r, rest, b1⟩
  have hcons := fillTo_conserve hfill
  simp only [emptyBuf, List.nil_append] at hcons
  cases r with
  | false =>
    obtain ⟨rfl, hdata, hlen⟩ := fillTo_false_spec hfill hwf
    simp only [emptyBuf, List.nil_append] at hdata
    rw [readPrefaced_of_fill_false hfill]
    constructor
    · exact iff_of_true rfl (Or.inl (by rw [← hdata]; exact hlen))
    · intro _
      simpa using hcons
  | true =>
    rcases fillTo_true_spec hfill with ⟨-, -, hle⟩ | ⟨-, cs, -, -, hdata, hlen, -⟩
    · exfalso
      simp [emptyBuf, PREFACE_LEN, PREFACE] at hle
    · have h24 : PREFACE.length ≤ b1.data.length := by
        have : PREFACE.length ≤ PREFACE_LEN := by simp [PREFACE_LEN]
        omega
      have htake : chunks.flatten.take PREFACE.length = b1.data.take PREFACE.length := by
        rw [← hcons]
        exact List.take_append_of_le_length h24
      by_cases hm : b1.data.take PREFACE.length = PREFACE
      · have hne : (Header.readPrefaced chunks emptyBuf).1 ≠ .ok none := by
          rw [readPrefaced_of_fill_true hfill, if_neg (by simp [hm])]
          by_cases hsz : (bufAdvance b1 PREFACE_LEN).cap + PREFACE_LEN <
              be32 (b1.data.drop PREFACE.length)
          · rw [if_pos hsz]
            simp
          · rw [if_neg hsz]
            rcases h2 : fillTo (be32 (b1.data.drop PREFACE.length)) rest
                (bufReserve (bufAdvance b1 PREFACE_LEN)
                  (be32 (b1.data.drop PREFACE.length))) with ⟨r2, rest2, b5⟩
            cases r2 with
            | false => simp
            | true =>
              rcases Header.decode_cases
                  (b5.data.take (be32 (b1.data.drop PREFACE.length))) with
                ⟨hh, hd⟩ | hd | hd <;> simp [hd]
        refine ⟨iff_of_false hne ?_, fun habs => absurd habs hne⟩
        rintro (h1 | h2)
        · rw [← hcons] at h1
          simp only [List.length_append] at h1
          omega
        · exact h2 (htake ▸ hm)
      · rw [readPrefaced_of_fill_true hfill, if_pos hm]
        constructor
        · exact iff_of_true rfl (Or.inr (by rw [htake]; exact hm))
        · intro _
          simpa using hcons

/-- C3 (amended): stripping the 24-byte preface and the 4-byte length
(`PREFACE_LEN = 28` bytes in total) from the prefaced encoding and decoding
the remainder reproduces the header. -/
theorem c3_roundtrip_strip_frame (h : Header) (hp : h.port < 65536)
    (F : List Nat) (hF : Header.encodePrefaced h [] = some F) :
    Header.decode (F.drop PREFACE_LEN) = .ok (some h) := by
  rw [Header.encodePrefaced_eq] at hF
  have hFe : PREFACE ++ be32enc h.encode.length ++ h.encode = F := by
    injection hF
  subst hFe
  have hdrop : (PREFACE ++ be32enc h.encode.length ++ h.encode).drop PREFACE_LEN =
      h.encode := by
    have h28 : PREFACE_LEN = (PREFACE ++ be32enc h.encode.length).length := by
      simp [PREFACE_LEN, be32enc_length]
    rw [h28]
    exact List.drop_left _ _
  rw [hdrop]
  exact Header.decode_encode h hp

/-- C5: after the preface matched, detection fails with the oversized-frame
error exactly when the decoded length exceeds the remaining capacity plus
`PREFACE_LEN`; in that case it returns before reserving message capacity
and before any payload read, leaving the transport at the chunks it held at
the check. -/
theorem c5_oversized_iff (chunks : List (List Nat)) (b : BufMut)
    (rest : List (List Nat)) (b1 : BufMut)
    (hfill : fillTo PREFACE_LEN chunks b = (true, rest, b1))
    (hmatch : b1.data.take PREFACE.length = PREFACE) :
    ((Header.readPrefaced chunks b).1 = .error .oversized ↔
      (bufAdvance b1 PREFACE_LEN).cap + PREFACE_LEN <
        be32 (b1.data.drop PREFACE.length)) ∧
    ((bufAdvance b1 PREFACE_LEN).cap + PREFACE_LEN <
        be32 (b1.data.drop PREFACE.length) →
      Header.readPrefaced chunks b =
        (.error .oversized, bufAdvance b1 PREFACE_LEN, rest)) := by
  rw [readPrefaced_of_fill_true hfill, if_neg (by simp [hmatch])]
  by_cases hsz : (bufAdvance b1 PREFACE_LEN).cap + PREFACE_LEN <
      be32 (b1.data.drop PREFACE.length)
  · rw [if_pos hsz]
    exact ⟨iff_of_true rfl hsz, fun _ => rfl⟩
  · rw [if_neg hsz]
    refine ⟨iff_of_false ?_ hsz, fun habs => absurd habs hsz⟩
    rcases h2 : fillTo (be32 (b1.data.drop PREFACE.length)) rest
        (bufReserve (bufAdvance b1 PREFACE_LEN)
          (be32 (b1.data.drop PREFACE.length))) with ⟨r2, rest2, b5⟩
    cases r2 with
    | false => simp
    | true =>
      rcases Header.decode_cases
          (b5.data.take (be32 (b1.data.drop PREFACE.length))) with
        ⟨hh, hd⟩ | hd | hd <;> simp [hd]

/-- C6: once the preface matched and the length was accepted, an end of
stream before the full payload is the truncated-frame error, never the
absent-header result. -/
theorem c6_truncated_after_commit (chunks : List (List Nat)) (b : BufMut)
    (rest rest2 : List (List Nat)) (b1 b5 : BufMut)
    (hfill : fillTo PREFACE_LEN chunks b = (true, rest, b1))
    (hmatch : b1.data.take PREFACE.length = PREFACE)
    (hsz : ¬ (bufAdvance b1 PREFACE_LEN).cap + PREFACE_LEN <
      be32 (b1.data.drop PREFACE.length))
    (heof : fillTo (be32 (b1.data.drop PREFACE.length)) rest
        (bufReserve (bufAdvance b1 PREFACE_LEN)
          (be32 (b1.data.drop PREFACE.length))) = (false, rest2, b5)) :
    Header.readPrefaced chunks b = (.error .truncated, b5, rest2) ∧
    (Header.readPrefaced chunks b).1 ≠ .ok none := by
  rw [readPrefaced_of_fill_true hfill, if_neg (by simp [hmatch]), if_neg hsz, heof]
  exact ⟨rfl, by simp⟩

/-- C8: the wire port (a signed 32-bit field carried as a varint) is
narrowed to the 16-bit port by two's-complement truncation with no range
check, and encoding widens the 16-bit port into the wire field unchanged. -/
theorem c8_port_narrowing :
    (∀ v : Nat, v < 2 ^ 64 →
      Header.decode (8 :: varintEncode v) = .ok (some ⟨v % 65536, none⟩)) ∧
    (∀ p : Nat, p < 65536 →
      decodeProto (Header.encode ⟨p, none⟩) = some ⟨(p : Int), []⟩) := by
  constructor
  · intro v hv
    have hproto : decodeProto (8 :: varintEncode v) = some ⟨u64ToI32 v, []⟩ := by
      unfold decodeProto
      have hl : (8 :: varintEncode v).length + 1 = (varintEncode v).length + 2 := by
        simp
      rw [hl]
      simp only [decodeProtoLoop]
      rw [varintDecode_small (by omega)]
      norm_num
      rw [varintDecode_encode_nil hv]
      simp [decodeProtoLoop, protoDefault]
    unfold Header.decode
    rw [hproto]
    have hcast : i32ToU16 (u64ToI32 v) = v % 65536 := by
      unfold i32ToU16 u64ToI32
      have h32 : (2 : Nat) ^ 32 = 4294967296 := by norm_num
      have h31 : (2 : Nat) ^ 31 = 2147483648 := by norm_num
      have h32i : (2 : Int) ^ 32 = 4294967296 := by norm_num
      rw [h32, h31, h32i]
      split
      · omega
      · omega
    simp [hcast]
  · intro p hp
    have := decodeProto_encodeProto ⟨(p : Int), nameBytes none⟩
      (by show (0 : Int) ≤ ((p : Nat) : Int); exact Int.natCast_nonneg _)
      (by show ((p : Nat) : Int) < 2 ^ 31; omega)
      (by rfl) (by simp [nameBytes])
    simpa [Header.encode, nameBytes] using this

/-- C10: when the caller's buffer already holds a complete frame, detection
resolves without consuming anything from the transport and agrees with a
run over a stream delivering the same bytes. -/
theorem c10_buffered_frame (chunks : List (List Nat)) (D : List Nat) (cap0 : Nat)
    (hcap : D.length ≤ cap0) (hlen : PREFACE_LEN ≤ D.length)
    (hmsg : PREFACE_LEN + be32 (D.drop PREFACE.length) ≤ D.length) :
    (Header.readPrefaced chunks ⟨D, cap0⟩).2.2 = chunks ∧
    (Header.readPrefaced chunks ⟨D, cap0⟩).1 = (Header.readPrefaced [D] emptyBuf).1 ∧
    (Header.readPrefaced chunks ⟨D, cap0⟩).2.1.data =
      (Header.readPrefaced [D] emptyBuf).2.1.data := by
  have hfillA : fillTo PREFACE_LEN chunks ⟨D, cap0⟩ = (true, chunks, ⟨D, cap0⟩) :=
    fillTo_of_le hlen
  have hfillB : fillTo PREFACE_LEN [D] emptyBuf = (true, [], ⟨D, D.length⟩) :=
    fillTo_single (by norm_num [PREFACE_LEN, PREFACE]) hlen
  rw [readPrefaced_of_fill_true hfillA, readPrefaced_of_fill_true hfillB]
  dsimp only
  by_cases hm : D.take PREFACE.length = PREFACE
  · rw [if_neg (show ¬ (D.take PREFACE.length ≠ PREFACE) from by simp [hm])]
    have hszA : ¬ (bufAdvance ⟨D, cap0⟩ PREFACE_LEN).cap + PREFACE_LEN <
        be32 (D.drop PREFACE.length) := by
      show ¬ cap0 - PREFACE_LEN + PREFACE_LEN < be32 (D.drop PREFACE.length)
      omega
    have hszB : ¬ (bufAdvance ⟨D, D.length⟩ PREFACE_LEN).cap + PREFACE_LEN <
        be32 (D.drop PREFACE.length) := by
      show ¬ D.length - PREFACE_LEN + PREFACE_LEN < be32 (D.drop PREFACE.length)
      omega
    rw [if_neg hszA, if_neg hszB]
    have hlenD : be32 (D.drop PREFACE.length) ≤ (D.drop PREFACE_LEN).length := by
      simp only [List.length_drop]
      omega
    have hfill2A : fillTo (be32 (D.drop PREFACE.length)) chunks
        (bufReserve (bufAdvance ⟨D, cap0⟩ PREFACE_LEN)
          (be32 (D.drop PREFACE.length))) = (true, chunks, _) :=
      fillTo_of_le (by simpa [bufReserve, bufAdvance] using hlenD)
    have hfill2B : fillTo (be32 (D.drop PREFACE.length)) []
        (bufReserve (bufAdvance ⟨D, D.length⟩ PREFACE_LEN)
          (be32 (D.drop PREFACE.length))) = (true, [], _) :=
      fillTo_of_le (by simpa [bufReserve, bufAdvance] using hlenD)
    rw [hfill2A, hfill2B]
    simp [bufReserve, bufAdvance, hm]
  · rw [if_pos hm, if_pos hm]
    exact ⟨rfl, rfl, rfl⟩

end ConnHeader

namespace ConnHeader

/-- The 32-bit read only inspects the first four bytes. -/
theorem be32_take {l : List Nat} {k : Nat} (hk : 4 ≤ k) : be32 (l.take k) = be32 l := by
  obtain ⟨k2, rfl⟩ : ∃ k2, k = k2 + 4 := ⟨k - 4, by omega⟩
  rcases l with - | ⟨a, - | ⟨b, - | ⟨c, - | ⟨d, tl⟩⟩⟩⟩ <;> simp [be32, List.take_succ_cons]

/-- A successful accumulation reaches its target. -/
theorem fillTo_true_target {t : Nat} {chunks : List (List Nat)} {b : BufMut}
    {rest : List (List Nat)} {b' : BufMut}
    (h : fillTo t chunks b = (true, rest, b')) : t ≤ b'.data.length := by
  rcases fillTo_true_spec h with ⟨rfl, -, hle⟩ | ⟨-, -, -, -, -, hle, -⟩ <;> exact hle

/-- Detection over a single read carrying exactly one frame: the outcome is
the decoder's verdict on the payload, the buffer is drained, and the
transport is exhausted. -/
theorem readPrefaced_oneShot_frame (payload : List Nat)
    (hlen : payload.length < 2 ^ 32) :
    Header.readPrefaced [PREFACE ++ be32enc payload.length ++ payload] emptyBuf =
      (Header.decode payload, ⟨[], payload.length⟩, []) := by
  have hN : (PREFACE ++ be32enc payload.length ++ payload).length =
      28 + payload.length := by
    simp [PREFACE, be32enc]
    omega
  have hfill := fillTo_single (t := PREFACE_LEN)
    (S := PREFACE ++ be32enc payload.length ++ payload)
    (by norm_num [PREFACE_LEN, PREFACE]) (by rw [hN]; norm_num [PREFACE_LEN, PREFACE])
  rw [readPrefaced_of_fill_true hfill]
  have htake : (PREFACE ++ be32enc payload.length ++ payload).take PREFACE.length =
      PREFACE := List.take_left _ _
  have hdrop24 : (PREFACE ++ be32enc payload.length ++ payload).drop PREFACE.length =
      be32enc payload.length ++ payload := List.drop_left _ _
  rw [if_neg (by simp [htake])]
  have hbe : be32 ((PREFACE ++ be32enc payload.length ++ payload).drop PREFACE.length) =
      payload.length := by
    rw [hdrop24]
    exact be32_be32enc payload.length hlen payload
  rw [hbe]
  have hdrop28 : (PREFACE ++ be32enc payload.length ++ payload).drop PREFACE_LEN =
      payload := by
    have h28 : PREFACE_LEN = (PREFACE ++ be32enc payload.length).length := by
      simp [PREFACE_LEN, be32enc_length]
    rw [h28]
    exact List.drop_left _ _
  have hsz : ¬ (bufAdvance ⟨PREFACE ++ be32enc payload.length ++ payload,
      (PREFACE ++ be32enc payload.length ++ payload).length⟩ PREFACE_LEN).cap +
      PREFACE_LEN < payload.length := by
    show ¬ (PREFACE ++ be32enc payload.length ++ payload).length - PREFACE_LEN +
      PREFACE_LEN < payload.length
    rw [hN]
    simp [PREFACE_LEN, PREFACE]
  rw [if_neg hsz]
  have hfill2 : fillTo payload.length []
      (bufReserve (bufAdvance ⟨PREFACE ++ be32enc payload.length ++ payload,
        (PREFACE ++ be32enc payload.length ++ payload).length⟩ PREFACE_LEN)
        payload.length) =
      (true, [], bufReserve (bufAdvance ⟨PREFACE ++ be32enc payload.length ++ payload,
        (PREFACE ++ be32enc payload.length ++ payload).length⟩ PREFACE_LEN)
        payload.length) := by
    refine fillTo_of_le ?_
    show payload.length ≤ ((PREFACE ++ be32enc payload.length ++ payload).drop
      PREFACE_LEN).length
    rw [hdrop28]
  rw [hfill2]
  have hbuf : bufReserve (bufAdvance ⟨PREFACE ++ be32enc payload.length ++ payload,
      (PREFACE ++ be32enc payload.length ++ payload).length⟩ PREFACE_LEN)
      payload.length = ⟨payload, 2 * payload.length⟩ := by
    show (⟨(PREFACE ++ be32enc payload.length ++ payload).drop PREFACE_LEN,
      max ((PREFACE ++ be32enc payload.length ++ payload).length - PREFACE_LEN)
        (((PREFACE ++ be32enc payload.length ++ payload).drop PREFACE_LEN).length +
          payload.length)⟩ : BufMut) = ⟨payload, 2 * payload.length⟩
    rw [hdrop28]
    simp only [BufMut.mk.injEq, hN]
    constructor
    · trivial
    · simp [PREFACE_LEN, PREFACE]
      omega
  rw [hbuf]
  have h2m : 2 * payload.length - payload.length = payload.length := by omega
  simp [bufAdvance, h2m]


/-- C4 (amended): delivering the bytes of one frame in any nonempty
chunking either rejects the frame through the capacity bound, or produces
exactly the single-read outcome, with identical remaining buffer contents;
the single-read run itself never hits the capacity bound. -/
theorem c4_fragmentation (payload : List Nat) (hlen : payload.length < 2 ^ 32)
    (P : List (List Nat)) (hwf : ∀ c ∈ P, c ≠ [])
    (hjoin : P.flatten = PREFACE ++ be32enc payload.length ++ payload) :
    (Header.readPrefaced [PREFACE ++ be32enc payload.length ++ payload]
        emptyBuf).1 ≠ .error .oversized ∧
    ((Header.readPrefaced P emptyBuf).1 = .error .oversized ∨
      ((Header.readPrefaced P emptyBuf).1 =
        (Header.readPrefaced [PREFACE ++ be32enc payload.length ++ payload]
          emptyBuf).1 ∧
       (Header.readPrefaced P emptyBuf).2.1.data =
        (Header.readPrefaced [PREFACE ++ be32enc payload.length ++ payload]
          emptyBuf).2.1.data)) := by
  have hone := readPrefaced_oneShot_frame payload hlen
  constructor
  · rw [hone]
    rcases Header.decode_cases payload with ⟨hh, hd⟩ | hd | hd <;> simp [hd]
  · have hFlen : P.flatten.length = 28 + payload.length := by
      rw [hjoin]
      simp [PREFACE, be32enc]
      omega
    have h28tot : PREFACE_LEN ≤ emptyBuf.data.length + P.flatten.length := by
      have h28 : PREFACE_LEN = 28 := rfl
      simp only [emptyBuf, List.length_nil]
      rw [h28, hFlen]
      omega
    rcases hfill : fillTo PREFACE_LEN P emptyBuf with ⟨r, rest, b1⟩
    cases r with
    | false =>
      have hr := fillTo_reaches hwf h28tot
      rw [hfill] at hr
      simp at hr
    | true =>
      rcases fillTo_true_spec hfill with ⟨-, -, hle⟩ | ⟨-, cs, -, hP, hdata, hL, hcap⟩
      · exfalso
        simp [emptyBuf, PREFACE_LEN, PREFACE] at hle
      · have hcons := fillTo_conserve hfill
        simp only [emptyBuf, List.nil_append] at hcons hdata hcap
        have h28' : PREFACE_LEN = 28 := rfl
        have h24' : PREFACE.length = 24 := rfl
        have h24le : PREFACE.length ≤ b1.data.length := by omega
        have htake : b1.data.take PREFACE.length = PREFACE := by
          have hstep := congrArg (List.take PREFACE.length) hcons
          rw [List.take_append_of_le_length h24le] at hstep
          rw [hstep, hjoin]
          exact List.take_left _ _
        have hLle : b1.data.length ≤ 28 + payload.length := by
          have := congrArg List.length hcons
          simp only [List.length_append] at this
          omega
        have hb1 : b1.data = P.flatten.take b1.data.length := by
          conv_rhs => rw [← hcons]
          exact (List.take_left _ _).symm
        have hdrop24 : b1.data.drop PREFACE.length =
            (be32enc payload.length ++ payload).take (b1.data.length - 24) := by
          conv_lhs => rw [hb1]
          rw [List.drop_take]
          congr 1
          rw [hjoin, show (PREFACE.length : Nat) = PREFACE.length from rfl]
          exact List.drop_left _ _
        have hmsgLen : be32 (b1.data.drop PREFACE.length) = payload.length := by
          rw [hdrop24, be32_take (by omega), be32_be32enc payload.length hlen]
        rw [readPrefaced_of_fill_true hfill, if_neg (by simp [htake]), hmsgLen]
        by_cases hsz : (bufAdvance b1 PREFACE_LEN).cap + PREFACE_LEN < payload.length
        · rw [if_pos hsz]
          exact Or.inl rfl
        · rw [if_neg hsz]
          right
          have hwfrest : ∀ c ∈ rest, c ≠ [] := by
            intro c hc
            exact hwf c (by rw [hP]; simp [hc])
          have hb4data : (bufReserve (bufAdvance b1 PREFACE_LEN)
              payload.length).data = b1.data.drop PREFACE_LEN := rfl
          have hrestlen : rest.flatten.length = 28 + payload.length - b1.data.length := by
            have := congrArg List.length hcons
            simp only [List.length_append] at this
            omega
          have htot2 : payload.length ≤
              (bufReserve (bufAdvance b1 PREFACE_LEN) payload.length).data.length +
                rest.flatten.length := by
            rw [hb4data]
            simp only [List.length_drop]
            omega
          rcases hfill2 : fillTo payload.length rest
              (bufReserve (bufAdvance b1 PREFACE_LEN) payload.length) with ⟨r2, rest2, b5⟩
          cases r2 with
          | false =>
            have hr2 := fillTo_reaches hwfrest htot2
            rw [hfill2] at hr2
            simp at hr2
          | true =>
            have hcons2 := fillTo_conserve hfill2
            rw [hb4data] at hcons2
            have hdrop28 : b1.data.drop PREFACE_LEN ++ rest.flatten = payload := by
              have hstep := congrArg (List.drop PREFACE_LEN) hcons
              rw [List.drop_append_of_le_length (by omega)] at hstep
              rw [hstep, hjoin]
              have h28'' : PREFACE_LEN = (PREFACE ++ be32enc payload.length).length := by
                simp [PREFACE_LEN, be32enc_length]
              rw [h28'']
              exact List.drop_left _ _
            rw [hdrop28] at hcons2
            have hb5target := fillTo_true_target hfill2
            have hb5lenle : b5.data.length ≤ payload.length := by
              have := congrArg List.length hcons2
              simp only [List.length_append] at this
              omega
            have hb5len : b5.data.length = payload.length := le_antisymm hb5lenle hb5target
            have hrest2nil : rest2.flatten = [] := by
              have hlen2 := congrArg List.length hcons2
              simp only [List.length_append] at hlen2
              have hr20 : rest2.flatten.length = 0 := by omega
              exact List.length_eq_zero.mp hr20
            have hb5 : b5.data = payload := by
              have := hcons2
              rw [hrest2nil, List.append_nil] at this
              exact this
            rw [hone]
            constructor
            · show Header.decode (List.take payload.length b5.data) = Header.decode payload
              rw [hb5, List.take_length]
            · show (bufAdvance b5 payload.length).data = ([] : List Nat)
              simp [bufAdvance, hb5]

end ConnHeader

namespace HttpMetrics

/-- C9: a failed registry lock makes the formatter return `Ok` with nothing
written, and no input makes it surface an error. -/
theorem c9_lock_failure_empty_report (rep : Report) (now : Nat)
    (hlock : rep.registryLock = none) :
    fmtMetrics rep now = .ok "" ∧
    ∀ (rep2 : Report) (now2 : Nat), ∃ s, fmtMetrics rep2 now2 = .ok s := by
  constructor
  · simp [fmtMetrics, hlock]
  · intro rep2 now2
    unfold fmtMetrics
    cases rep2.registryLock with
    | none => exact ⟨"", rfl⟩
    | some reg0 =>
      by_cases he : (retainSince reg0 (now2 - rep2.retainIdle)).byTarget.isEmpty
      · exact ⟨"", by simp [he]⟩
      · exact ⟨_, by dsimp only; rw [if_neg he]⟩

end HttpMetrics

namespace ConnHeader

/-- C7 (amended): on an initially empty buffer, `encode_prefaced` appends
exactly the 24-byte ASCII preface, then a 4-byte big-endian field holding
the encoded payload's byte length (back-patched at offset 24 after the
payload is encoded), then the payload; it fails only if the payload length
exceeds the representable range of the 32-bit length field. -/
theorem c7_encode_prefaced_shape (h : Header) :
    Header.encodePrefaced h [] =
      some (PREFACE ++ be32enc h.encode.length ++ h.encode) ∧
    (Header.encodePrefaced h [] = none ↔ 2 ^ 32 - 1 < h.encode.length) := by
  refine ⟨Header.encodePrefaced_eq h, ?_, ?_⟩
  · intro habs
    rw [Header.encodePrefaced_eq h] at habs
    exact absurd habs (by simp)
  · intro hgt
    have := Header.encode_length_le h
    omega

/-- Counterexample to C2 as stated: a stream of 26 bytes whose first 21
bytes agree with the preface is in neither of the two stated cases
(`first 21 differ`, `fewer than 25 buffered`), yet detection returns the
absent-header result because the source preface is 24 bytes and
`PREFACE_LEN` is 28. -/
theorem c2_counterexample :
    (Header.readPrefaced [PREFACE ++ [0, 0]] emptyBuf).1 = .ok none ∧
    25 ≤ (PREFACE ++ [0, 0]).length ∧
    (PREFACE ++ [0, 0]).take 21 = PREFACE.take 21 := by
  decide

/-- Witness for C2: the HTTP request line stream is reported absent. -/
theorem c2_witness :
    (Header.readPrefaced [httpBytes] emptyBuf).1 = .ok none ↔
      (([httpBytes] : List (List Nat)).flatten.length < PREFACE_LEN ∨
       ([httpBytes] : List (List Nat)).flatten.take PREFACE.length ≠ PREFACE) :=
  (c2_not_present_iff [httpBytes] (by decide)).1

/-- Witness for C1: the concrete round-trip scenario with port 4040, name
`foo.bar.example.com` and trailing bytes `b"12345"`. -/
theorem c1_witness :
    hdrFoo.port < 65536 ∧ Header.encodePrefaced hdrFoo [] = some frameFoo ∧
    ((Header.readPrefaced [frameFoo ++ trailing5] emptyBuf).1 = .ok (some hdrFoo) ∧
     (Header.readPrefaced [frameFoo ++ trailing5] emptyBuf).2.1.data = trailing5 ∧
     (Header.readPrefaced [frameFoo ++ trailing5] emptyBuf).2.2 = []) :=
  ⟨by decide, by decide,
    c1_trailing_bytes_preserved hdrFoo (by decide) frameFoo trailing5 (by decide)⟩

/-- Counterexample to C3 as stated: stripping 21 + 4 bytes (instead of the
source's 24 + 4) leaves length bytes in front of the payload, and decoding
fails instead of reproducing the header. -/
theorem c3_counterexample :
    Header.decode (frameFoo.drop (21 + 4)) ≠ .ok (some hdrFoo) := by
  decide

/-- Witness for C3: the concrete header round-trips through the frame. -/
theorem c3_witness :
    hdrFoo.port < 65536 ∧ Header.decode (frameFoo.drop PREFACE_LEN) = .ok (some hdrFoo) :=
  ⟨by decide, c3_roundtrip_strip_frame hdrFoo (by decide) frameFoo (by decide)⟩

/-- Counterexample to C4 as stated: the same frame bytes delivered one byte
per read fail with the oversized-frame error, while a single read decodes
the header. -/
theorem c4_counterexample :
    (Header.readPrefaced (frameLong.map (fun b => [b])) emptyBuf).1 =
      .error .oversized ∧
    (Header.readPrefaced [frameLong] emptyBuf).1 = .ok (some hdrLong) ∧
    (frameLong.map (fun b => [b])).flatten = frameLong := by
  decide

/-- Witness for C4: a singleton chunking of the concrete frame agrees with
the single-read run. -/
theorem c4_witness :
    (Header.readPrefaced [frameFoo] emptyBuf).1 ≠ .error .oversized ∧
    ((Header.readPrefaced [frameFoo] emptyBuf).1 = .error .oversized ∨
      ((Header.readPrefaced [frameFoo] emptyBuf).1 =
        (Header.readPrefaced [PREFACE ++ be32enc hdrFoo.encode.length ++ hdrFoo.encode]
          emptyBuf).1 ∧
       (Header.readPrefaced [frameFoo] emptyBuf).2.1.data =
        (Header.readPrefaced [PREFACE ++ be32enc hdrFoo.encode.length ++ hdrFoo.encode]
          emptyBuf).2.1.data)) := by
  have := c4_fragmentation hdrFoo.encode (by decide) [frameFoo] (by decide) (by decide)
  exact ⟨this.1, this.2⟩

/-- Witness for C5: a frame declaring a `0xFFFFFFFF`-byte message trips the
capacity bound. -/
theorem c5_witness :
    ((Header.readPrefaced [overszStream] emptyBuf).1 = .error .oversized ↔
      (bufAdvance (⟨overszStream, 29⟩ : BufMut) PREFACE_LEN).cap + PREFACE_LEN <
        be32 ((⟨overszStream, 29⟩ : BufMut).data.drop PREFACE.length)) ∧
    ((bufAdvance (⟨overszStream, 29⟩ : BufMut) PREFACE_LEN).cap + PREFACE_LEN <
        be32 ((⟨overszStream, 29⟩ : BufMut).data.drop PREFACE.length) →
      Header.readPrefaced [overszStream] emptyBuf =
        (.error .oversized, bufAdvance (⟨overszStream, 29⟩ : BufMut) PREFACE_LEN, [])) :=
  c5_oversized_iff [overszStream] emptyBuf [] ⟨overszStream, 29⟩ (by decide) (by decide)

/-- Witness for C6: a stream truncated mid-payload after a preface match
fails with the truncated-frame error. -/
theorem c6_witness :
    Header.readPrefaced [truncStream] emptyBuf =
      (.error .truncated, ⟨[1, 2], 7⟩, []) ∧
    (Header.readPrefaced [truncStream] emptyBuf).1 ≠ .ok none :=
  c6_truncated_after_commit [truncStream] emptyBuf [] [] ⟨truncStream, 30⟩
    ⟨[1, 2], 7⟩ (by decide) (by decide) (by decide) (by decide)

/-- Counterexample to C7 as stated: the appended preface is 24 bytes, not
21, so the output does not consist of a 21-byte preface followed by the
length field. -/
theorem c7_counterexample :
    Header.encodePrefaced hdrFoo [] ≠
      some (PREFACE.take 21 ++ be32enc hdrFoo.encode.length ++ hdrFoo.encode) := by
  decide

/-- Witness for C7: the concrete header's prefaced encoding. -/
theorem c7_witness :
    Header.encodePrefaced hdrFoo [] =
      some (PREFACE ++ be32enc hdrFoo.encode.length ++ hdrFoo.encode) :=
  (c7_encode_prefaced_shape hdrFoo).1

/-- Witness for C8: wire value `2^64 - 1` (the sign-extended encoding of
`-1`) decodes to port 65535, and port 4040 is carried unchanged. -/
theorem c8_witness :
    Header.decode (8 :: varintEncode (2 ^ 64 - 1)) =
      .ok (some ⟨(2 ^ 64 - 1) % 65536, none⟩) ∧
    decodeProto (Header.encode ⟨4040, none⟩) = some ⟨((4040 : Nat) : Int), []⟩ :=
  ⟨c8_port_narrowing.1 (2 ^ 64 - 1) (by norm_num),
   c8_port_narrowing.2 4040 (by norm_num)⟩

/-- Witness for C10: the buffered concrete frame resolves without touching
the transport. -/
theorem c10_witness :
    (Header.readPrefaced [[9, 9]] (⟨frameFoo, 60⟩ : BufMut)).2.2 = [[9, 9]] ∧
    (Header.readPrefaced [[9, 9]] (⟨frameFoo, 60⟩ : BufMut)).1 =
      (Header.readPrefaced [frameFoo] emptyBuf).1 ∧
    (Header.readPrefaced [[9, 9]] (⟨frameFoo, 60⟩ : BufMut)).2.1.data =
      (Header.readPrefaced [frameFoo] emptyBuf).2.1.data :=
  c10_buffered_frame [[9, 9]] frameFoo 60 (by decide) (by decide) (by decide)

end ConnHeader

namespace HttpMetrics

/-- Witness for C9: a report whose registry lock failed formats to the
empty string. -/
theorem c9_witness : fmtMetrics ⟨"", 0, none⟩ 5 = .ok "" :=
  (c9_lock_failure_empty_report ⟨"", 0, none⟩ 5 rfl).1

end HttpMetrics
